import Mathlib

/-!
Verification of the umi-http workflow driver (src/main.rs).

The driver's pure logic is embedded shallowly:
* the stale-index extraction at the top of `run` (the regex
  `(?m)^(\d+)\s+BatchDOC_` driven by `captures_iter` with a `u16` parse)
  becomes the character-level scanner `extractAux`;
* the fresh-entry check of `verify` (regex `BatchDOC_\d+`, `find`)
  becomes `containsFreshEntryC`;
* the bounded retry loop of `verify` becomes `verifyFrom`;
* the output-path derivation of `run` (lines 134 and 141-145) becomes
  `deriveOutput?` over a string model of the `Path` operations used;
* `watch_output` becomes the fuel-indexed `watchOutput` over a
  time-indexed filesystem observation function;
* the command sequence of `run` becomes the event trace `runEvents`.

Characters are modelled on the ASCII range: `isDig` models the regex
class `\d` and `isWsC` the class `\s`, restricted to ASCII, which is
sufficient for every statement below.
-/

/-- ASCII decimal digit, modelling the regex class `\d`. -/
def isDig (c : Char) : Bool := '0' ≤ c && c ≤ '9'

/-- ASCII whitespace, modelling the regex class `\s`. -/
def isWsC (c : Char) : Bool :=
  c == ' ' || c == '\t' || c == '\n' || c == '\r' || c == '\x0b' || c == '\x0c'

/-- The reserved tab-name literal `BatchDOC_` that both regexes of the
source contain (the constant `TAB_NAME` followed by an underscore). -/
def tabLit : List Char := ['B', 'a', 't', 'c', 'h', 'D', 'O', 'C', '_']

/-- Numeric value of a digit string, as `str::parse` accumulates it. -/
def digitsToNat (ds : List Char) : Nat :=
  ds.foldl (fun a c => 10 * a + (c.toNat - ('0').toNat)) 0

/-- Model of `str::parse::<u16>().ok()` on a nonempty digit string:
the value if it fits in `u16`, otherwise `none` (overflow error). -/
def parseU16 (ds : List Char) : Option Nat :=
  if digitsToNat ds < 65536 then some (digitsToNat ds) else none

/-- One anchored match attempt of `(?m)^(\d+)\s+BatchDOC_` at the head of
`s` (which the callers only invoke at line starts): the capture-group
digits together with the total number of characters the match consumes.
The greedy runs are maximal; backtracking cannot produce other matches
because a shorter digit run is followed by a digit (not `\s`) and a
shorter whitespace run is followed by whitespace (not `B`). -/
def matchAt (s : List Char) : Option (List Char × Nat) :=
  if (s.takeWhile isDig).isEmpty then none
  else if ((s.dropWhile isDig).takeWhile isWsC).isEmpty then none
  else if tabLit.isPrefixOf ((s.dropWhile isDig).dropWhile isWsC) then
    some (s.takeWhile isDig,
      (s.takeWhile isDig).length + ((s.dropWhile isDig).takeWhile isWsC).length + tabLit.length)
  else none

/-- The scan of `captures_iter` over the listing text: walk the text one
character at a time, keeping the at-line-start flag of `(?m)^`; at each
line start try `matchAt`; on a match, emit the parsed index when the
digits fit `u16` (the `filter_map` of `run`) and skip the remainder of
the matched region, so that the search resumes at the match end exactly
as `captures_iter` does.  The skip counter holds how many of the
following characters are still inside the current match. -/
def extractAux : List Char → Bool → Nat → List Nat
  | [], _, _ => []
  | c :: rest, atStart, 0 =>
    if atStart then
      match matchAt (c :: rest) with
      | some (ds, n) => (parseU16 ds).toList ++ extractAux rest false (n - 1)
      | none => extractAux rest (c == '\n') 0
    else extractAux rest (c == '\n') 0
  | c :: rest, _, k + 1 => extractAux rest (c == '\n') k

/-- Stale-index extraction on character lists (lines 119-123 of `run`). -/
def extractStaleC (s : List Char) : List Nat := extractAux s true 0

/-- Stale-index extraction on the listing string. -/
def extractStaleIndices (s : String) : List Nat := extractStaleC s.data

/-- Within-line reading of the pattern: the index a single listing line
yields when the digits, the whitespace and the `BatchDOC_` literal all
lie on that line and the digits fit `u16`. -/
def lineMatch (l : List Char) : Option Nat :=
  (matchAt l).bind fun p => parseU16 p.1

/-- A line consisting of digits followed only by whitespace.  Such a line
lets the `\s+` of the pattern run past the line break, so the match may
continue on a later line. -/
def badLine (l : List Char) : Bool :=
  !(l.takeWhile isDig).isEmpty && (l.dropWhile isDig).all isWsC

/-- Join lines with the newline separator, the inverse of splitting a
listing text into lines. -/
def joinLines : List (List Char) → List Char
  | [] => []
  | [l] => l
  | l :: ls => l ++ '\n' :: joinLines ls

/-- Match of `BatchDOC_\d+` at the head of `s`: the literal followed by
at least one digit. -/
def freshAt (s : List Char) : Bool :=
  tabLit.isPrefixOf s &&
    (match s.drop tabLit.length with
     | c :: _ => isDig c
     | [] => false)

/-- Model of `Regex::find` for `BatchDOC_\d+`: does the pattern occur
anywhere in the text (line 81 of `verify`)? -/
def containsFreshEntryC : List Char → Bool
  | [] => false
  | c :: rest => freshAt (c :: rest) || containsFreshEntryC rest

/-- The fresh-entry check on the listing string. -/
def containsFreshEntry (s : String) : Bool := containsFreshEntryC s.data

/-- The constant `MAX_ATTEMPTS` of the source. -/
def MAX_ATTEMPTS : Nat := 3

/-- Observable outcome of the `verify` loop: the successful attempt
number if any, the number of attempts made, and the number of
inter-attempt sleeps performed. -/
structure VerifyOut where
  found : Option Nat
  attempts : Nat
  delays : Nat
deriving DecidableEq

/-- The loop body of `verify` (lines 80-91): `attempt` is the current
attempt number and the second argument the remaining attempts.  Each
failed attempt sleeps once before the next check, including the last
attempt before the timeout error. -/
def verifyFrom (listings : Nat → String) (attempt : Nat) : Nat → VerifyOut
  | 0 => ⟨none, 0, 0⟩
  | r + 1 =>
    if containsFreshEntry (listings attempt) then ⟨some attempt, 1, 0⟩
    else
      ⟨(verifyFrom listings (attempt + 1) r).found,
       (verifyFrom listings (attempt + 1) r).attempts + 1,
       (verifyFrom listings (attempt + 1) r).delays + 1⟩

/-- The `verify` function, fetching a fresh listing per attempt (the
listing observed on attempt `i` is `listings i`). -/
def verify (listings : Nat → String) : VerifyOut := verifyFrom listings 1 MAX_ATTEMPTS

/-- The remote-control commands `run` issues, in order. -/
inductive Event where
  | close (i : Nat)
  | openTab
  | addDocs (p : String)
  | docStart
  | watch (p : String)
deriving DecidableEq

/-- Predicate a character is not the path separator. -/
def notSlashC (c : Char) : Bool := !(c == '/')

/-- Predicate a character is not the extension dot. -/
def notDotC (c : Char) : Bool := !(c == '.')

/-- Model of `str::replace("\\", "/")` on character lists. -/
def normalizeC (s : List Char) : List Char :=
  s.map fun c => if c == '\\' then '/' else c

/-- Model of `str::replace("\\", "/")` on strings (line 134 of `run`). -/
def normalizeS (s : String) : String := String.mk (normalizeC s.data)

/-- The final path component: everything after the last `/`. -/
def afterLastSlash (s : List Char) : List Char :=
  (s.reverse.takeWhile notSlashC).reverse

/-- The leading directory part: everything up to and including the last
`/` (empty when the path has no separator). -/
def upToLastSlash (s : List Char) : List Char :=
  (s.reverse.dropWhile notSlashC).reverse

/-- Model of `Path::file_stem` on a file name: the part before the last
dot, except that a name without a dot, or whose only dot is leading, is
its own stem. -/
def fileStemOf (f : List Char) : List Char :=
  if (f.reverse.takeWhile notDotC).length = f.length then f
  else if (f.reverse.dropWhile notDotC).tail.isEmpty then f
  else (f.reverse.dropWhile notDotC).tail.reverse

/-- Model of `Path::file_name` for normalized paths whose last component
is a plain name: `none` exactly on an empty last component or a `.` or
`..` component, where the source's `unwrap` would panic or `Path` would
resolve components. -/
def fileName? (s : List Char) : Option (List Char) :=
  if afterLastSlash s = [] ∨ afterLastSlash s = ['.'] ∨ afterLastSlash s = ['.', '.'] then none
  else some (afterLastSlash s)

/-- Model of `path.with_extension("")` (line 142): the directory part
followed by the stem of the file name. -/
def withExtensionEmpty (s : List Char) : List Char :=
  upToLastSlash s ++ fileStemOf (afterLastSlash s)

/-- Model of `path.with_file_name(n)` (line 144) for paths carrying a
file name: replace the final component by `n`. -/
def withFileName (s n : List Char) : List Char := upToLastSlash s ++ n

/-- The fixed suffix and extension appended to the stem. -/
def layeredSuffix : List Char :=
  ['.', 'l', 'a', 'y', 'e', 'r', 'e', 'd', '.', 'p', 'd', 'f']

/-- Lines 141-145 of `run` on an already normalized path: strip the
extension, read the file name (`unwrap` becomes `none`), re-attach
`<stem>.layered.pdf`, and re-normalize the separators. -/
def deriveOutput? (p : List Char) : Option (List Char) :=
  match fileName? (withExtensionEmpty p) with
  | none => none
  | some fn => some (normalizeC (withFileName p (fn ++ layeredSuffix)))

/-- The whole output-path derivation from the raw input path, as `run`
performs it: separator normalization (line 134) then lines 141-145. -/
def derivedOutput (s : String) : Option String :=
  match deriveOutput? (normalizeC s.data) with
  | none => none
  | some cs => some (String.mk cs)

/-- Spec-side derivation, stated from the spec's words: the output path
is the input with its single final extension stripped and the fixed
suffix `.layered` plus extension `.pdf` appended, separators
normalized.  Kept separate from `deriveOutput?` so that the refinement
theorem compares the source's `Path`-operation pipeline against this
direct description. -/
def specOutputPath (p : List Char) : List Char :=
  upToLastSlash p ++ fileStemOf (afterLastSlash p) ++ layeredSuffix

/-- No two adjacent separators, part of the well-formedness assumption
under which the string model of the `Path` operations is exact. -/
def noDoubleSlash : List Char → Bool
  | [] => true
  | [_] => true
  | a :: b :: r => !(a == '/' && b == '/') && noDoubleSlash (b :: r)

/-- Well-formedness of an input path: after normalization it has no
doubled separator and ends in a plain file-name component with a plain
stem, so `file_name` is defined (no `unwrap` panic) and the string model
of the `Path` operations agrees with `std::path`. -/
def goodPath (s : String) : Bool :=
  noDoubleSlash (normalizeC s.data) &&
  !(afterLastSlash (normalizeC s.data)).isEmpty &&
  !(afterLastSlash (normalizeC s.data) == ['.']) &&
  !(afterLastSlash (normalizeC s.data) == ['.', '.']) &&
  !(fileStemOf (afterLastSlash (normalizeC s.data))).isEmpty &&
  !(fileStemOf (afterLastSlash (normalizeC s.data)) == ['.']) &&
  !(fileStemOf (afterLastSlash (normalizeC s.data)) == ['.', '.'])

/-- How a run of the driver ends in the model. -/
inductive RunOutcome where
  | ok
  | verifyTimeout
  | panicOutput
deriving DecidableEq

/-- The command trace of `run` (lines 118-148): close every extracted
stale index in reverse extraction order, open the fresh tab, verify
(issuing no commands), then on verification success add the document,
start processing and watch the derived output path.  A verification
timeout aborts before any submission command. -/
def runEvents (path l0 : String) (listings : Nat → String) : List Event × RunOutcome :=
  match (verify listings).found with
  | none =>
    ((extractStaleIndices l0).reverse.map Event.close ++ [Event.openTab],
     RunOutcome.verifyTimeout)
  | some _ =>
    match derivedOutput path with
    | none =>
      ((extractStaleIndices l0).reverse.map Event.close ++ [Event.openTab] ++
        [Event.addDocs (normalizeS path), Event.docStart],
       RunOutcome.panicOutput)
    | some out =>
      ((extractStaleIndices l0).reverse.map Event.close ++ [Event.openTab] ++
        [Event.addDocs (normalizeS path), Event.docStart, Event.watch out],
       RunOutcome.ok)

/-- The index a close command carries, if the event is a close. -/
def closeIdx : Event → Option Nat
  | Event.close i => some i
  | _ => none

/-- The indices of the close commands of a trace, in issue order. -/
def closesOf (tr : List Event) : List Nat := tr.filterMap closeIdx

/-- One observation of the output path: present with a modification
timestamp, absent, or a metadata error other than non-existence. -/
inductive FsObs where
  | found (ts : Nat)
  | absent
  | err (e : Nat)
deriving DecidableEq

/-- Model of `Path::exists`, which is true only when the metadata query
succeeds: both absence and any error report `false`. -/
def existsB : FsObs → Bool
  | FsObs.found _ => true
  | _ => false

/-- The error a failed metadata query surfaces through `?`. -/
inductive FsErr where
  | notFound
  | other (e : Nat)
deriving DecidableEq

/-- Result of watching with a given amount of poll fuel. -/
inductive WatchResult where
  | completed (t : Nat)
  | failed (e : FsErr) (t : Nat)
  | running
deriving DecidableEq

/-- The overwrite branch of `watch_output` (lines 99-107): starting from
poll time `t`, query metadata each tick; a timestamp differing from
`last` completes, an equal timestamp keeps polling, and any failed
metadata query (absence included, since this branch calls
`fs::metadata` directly) aborts with the error. -/
def watchFrom1 (fs : Nat → FsObs) (last : Nat) : Nat → Nat → WatchResult
  | _, 0 => WatchResult.running
  | t, fuel + 1 =>
    match fs t with
    | FsObs.found ts =>
      if ts ≠ last then WatchResult.completed t
      else watchFrom1 fs last (t + 1) fuel
    | FsObs.absent => WatchResult.failed FsErr.notFound t
    | FsObs.err e => WatchResult.failed (FsErr.other e) t

/-- The appearance branch of `watch_output` (lines 109-113): poll
`Path::exists` until it is true; errors are indistinguishable from
absence here, so nothing aborts. -/
def watchFrom2 (fs : Nat → FsObs) : Nat → Nat → WatchResult
  | _, 0 => WatchResult.running
  | t, fuel + 1 =>
    if existsB (fs t) then WatchResult.completed t
    else watchFrom2 fs (t + 1) fuel

/-- `watch_output` (lines 94-116): the branch is chosen once from the
observation at watch start (time 0); when the path exists its timestamp
is recorded and the overwrite branch polls from time 1, otherwise the
appearance branch polls existence from time 0 on. -/
def watchOutput (fs : Nat → FsObs) (fuel : Nat) : WatchResult :=
  match fs 0 with
  | FsObs.found ts => watchFrom1 fs ts 1 fuel
  | _ => watchFrom2 fs 0 fuel

/-- Listing whose match spans a line break: the digits line ends and the
literal sits on the next line. -/
def crossListing : String := "5\nBatchDOC_x"

/-- First line of `crossListing`. -/
def lineFive : String := "5"

/-- Second line of `crossListing`. -/
def lineBDoc : String := "BatchDOC_x"

/-- Listing line with leading whitespace before the numeric index. -/
def wsListing : String := " 5\tBatchDOC_x"

/-- Listing with stale entries at indices 2 and 5, listed ascending. -/
def ascListing : String := "2\tBatchDOC_1\n5\tBatchDOC_2"

/-- Listing with the same stale entries listed descending. -/
def descListing : String := "5\tBatchDOC_1\n2\tBatchDOC_2"

/-- Listing with no stale entries. -/
def emptyListing : String := "tab zero\nno entries here"

/-- Listing containing a fresh `BatchDOC_<digits>` entry. -/
def foundListing : String := "0\tBatchDOC_1"

/-- Listing with no fresh entry. -/
def missListing : String := "nothing"

/-- Simple input document path. -/
def docPath : String := "doc.pdf"

/-- Output path derived from `docPath`. -/
def docOutPath : String := "doc.layered.pdf"

/-- The Windows-style example input of the spec. -/
def winPath : String := "C:\\docs\\report.pdf"

/-- Output path derived from `winPath`. -/
def winOutPath : String := "C:/docs/report.layered.pdf"

/-- The double-extension example input of the spec. -/
def tarPath : String := "a/b/file.tar.gz"

/-- Output path derived from `tarPath`. -/
def tarOutPath : String := "a/b/file.tar.layered.pdf"

/-- An input path whose file name has no extension. -/
def plainPath : String := "a/b/file"

/-- Output path derived from `plainPath`. -/
def plainOutPath : String := "a/b/file.layered.pdf"

/-- The filesystem root, a path without a file name. -/
def rootPath : String := "/"

/-- Verification listings that never contain the fresh entry. -/
def listsNone : Nat → String := fun _ => missListing

/-- Verification listings failing on attempt 1 and succeeding on 2. -/
def listsSecond : Nat → String := fun i => if i == 2 then foundListing else missListing

/-- Verification listings succeeding immediately. -/
def listsAlways : Nat → String := fun _ => foundListing

/-- Output present from the start with timestamp 10, overwritten (new
timestamp 11) at time 3. -/
def fsSame : Nat → FsObs := fun t => if t < 3 then FsObs.found 10 else FsObs.found 11

/-- Output absent at the start, appearing at time 2. -/
def fsAppear : Nat → FsObs := fun t => if t < 2 then FsObs.absent else FsObs.found 5

/-- Output absent at the start, a permission-style metadata error at
time 1, the file appearing at time 2. -/
def fsErrSkip : Nat → FsObs := fun t =>
  if t == 1 then FsObs.err 13 else if t == 2 then FsObs.found 7 else FsObs.absent

/-- Output present at the start, a permission-style metadata error from
time 1 on. -/
def fsErrPresent : Nat → FsObs := fun t =>
  if t == 0 then FsObs.found 10 else FsObs.err 13

/-- A well-formed listing line with a stale entry at index 7. -/
def lineSeven : String := "7\tBatchDOC_9"

/-- A listing line matching nothing. -/
def junkLine : String := "no match here"

/-- The part of `wsListing` after its leading space. -/
def wsTail : String := "5\tBatchDOC_x"

theorem tw_break {p : Char → Bool} (l : List Char) (c : Char) (m : List Char) (hc : p c = false) :
    (l ++ c :: m).takeWhile p = l.takeWhile p := by
  induction l with
  | nil => simp [List.takeWhile_cons, hc]
  | cons a l ih =>
    cases hpa : p a with
    | false => simp [List.takeWhile_cons, hpa]
    | true => simp [List.takeWhile_cons, hpa, ih]

theorem dw_break {p : Char → Bool} (l : List Char) (c : Char) (m : List Char) (hc : p c = false) :
    (l ++ c :: m).dropWhile p = l.dropWhile p ++ c :: m := by
  induction l with
  | nil => simp [List.dropWhile_cons, hc]
  | cons a l ih =>
    cases hpa : p a with
    | false => simp [List.dropWhile_cons, hpa]
    | true => simp [List.dropWhile_cons, hpa, ih]

theorem tw_stop {p : Char → Bool} (l m : List Char) (h : l.all p = false) :
    (l ++ m).takeWhile p = l.takeWhile p := by
  induction l with
  | nil => simp at h
  | cons a l ih =>
    cases hpa : p a with
    | false => simp [List.takeWhile_cons, hpa]
    | true =>
      simp only [List.all_cons, hpa, Bool.true_and] at h
      simp [List.takeWhile_cons, hpa, ih h]

theorem dw_stop {p : Char → Bool} (l m : List Char) (h : l.all p = false) :
    (l ++ m).dropWhile p = l.dropWhile p ++ m := by
  induction l with
  | nil => simp at h
  | cons a l ih =>
    cases hpa : p a with
    | false => simp [List.dropWhile_cons, hpa]
    | true =>
      simp only [List.all_cons, hpa, Bool.true_and] at h
      simp [List.dropWhile_cons, hpa, ih h]

theorem isPrefixOf_break :
    ∀ (lit : List Char), lit ≠ [] → ∀ (c : Char), c ∉ lit → ∀ (u m : List Char),
      lit.isPrefixOf (u ++ c :: m) = lit.isPrefixOf u := by
  intro lit
  induction lit with
  | nil => intro h; exact absurd rfl h
  | cons a t ih =>
    intro _ c hc u m
    cases u with
    | nil =>
      have hac : (a == c) = false := by
        refine beq_eq_false_iff_ne.mpr fun h => hc ?h
        exact h ▸ List.mem_cons_self a t
      simp [List.isPrefixOf, hac]
    | cons b u' =>
      cases t with
      | nil => simp [List.isPrefixOf]
      | cons x xs =>
        have hct : c ∉ x :: xs := fun h => hc (List.mem_cons_of_mem a h)
        have ht : (x :: xs : List Char) ≠ [] := by simp
        have hh := ih ht c hct u' m
        simp only [List.cons_append, List.isPrefixOf]
        rw [show u'.append (c :: m) = u' ++ c :: m from rfl, hh]

theorem matchAt_line (l rest : List Char) (hb : badLine l = false) :
    matchAt (l ++ '\n' :: rest) = matchAt l := by
  have hdig : isDig '\n' = false := by decide
  have h1 : (l ++ '\n' :: rest).takeWhile isDig = l.takeWhile isDig := tw_break l '\n' rest hdig
  have h2 : (l ++ '\n' :: rest).dropWhile isDig = l.dropWhile isDig ++ '\n' :: rest :=
    dw_break l '\n' rest hdig
  unfold matchAt
  rw [h1, h2]
  by_cases hds : (l.takeWhile isDig).isEmpty = true
  · simp [hds]
  · have hball : (l.dropWhile isDig).all isWsC = false := by
      cases hall : (l.dropWhile isDig).all isWsC with
      | false => rfl
      | true =>
        exfalso
        apply hds
        unfold badLine at hb
        rw [hall, Bool.and_true] at hb
        simpa using hb
    have h3 : (l.dropWhile isDig ++ '\n' :: rest).takeWhile isWsC =
        (l.dropWhile isDig).takeWhile isWsC := tw_stop _ _ hball
    have h4 : (l.dropWhile isDig ++ '\n' :: rest).dropWhile isWsC =
        (l.dropWhile isDig).dropWhile isWsC ++ '\n' :: rest := dw_stop _ _ hball
    rw [h3, h4]
    by_cases hws : ((l.dropWhile isDig).takeWhile isWsC).isEmpty = true
    · simp [hws]
    · have h5 : tabLit.isPrefixOf ((l.dropWhile isDig).dropWhile isWsC ++ '\n' :: rest) =
          tabLit.isPrefixOf ((l.dropWhile isDig).dropWhile isWsC) :=
        isPrefixOf_break tabLit (by decide) '\n' (by decide) _ _
      rw [h5]

theorem matchAt_bound (s : List Char) (ds : List Char) (n : Nat)
    (h : matchAt s = some (ds, n)) : 2 ≤ n ∧ n ≤ s.length := by
  unfold matchAt at h
  by_cases h1 : (s.takeWhile isDig).isEmpty = true
  · rw [if_pos h1] at h; exact absurd h (by simp)
  · rw [if_neg h1] at h
    by_cases h2 : ((s.dropWhile isDig).takeWhile isWsC).isEmpty = true
    · rw [if_pos h2] at h; exact absurd h (by simp)
    · rw [if_neg h2] at h
      by_cases h3 : tabLit.isPrefixOf ((s.dropWhile isDig).dropWhile isWsC) = true
      · rw [if_pos h3] at h
        simp only [Option.some.injEq, Prod.mk.injEq] at h
        obtain ⟨hds2, hn⟩ := h
        have hn := hn.symm
        have e1 : (s.takeWhile isDig).length + (s.dropWhile isDig).length = s.length := by
          conv_rhs => rw [← List.takeWhile_append_dropWhile (p := isDig) (l := s)]
          rw [List.length_append]
        have e2 : ((s.dropWhile isDig).takeWhile isWsC).length +
            ((s.dropWhile isDig).dropWhile isWsC).length = (s.dropWhile isDig).length := by
          conv_rhs => rw [← List.takeWhile_append_dropWhile (p := isWsC) (l := s.dropWhile isDig)]
          rw [List.length_append]
        have hlit : tabLit.length ≤ ((s.dropWhile isDig).dropWhile isWsC).length := by
          have hp : tabLit <+: (s.dropWhile isDig).dropWhile isWsC :=
            List.isPrefixOf_iff_prefix.mp h3
          exact hp.length_le
        have hd1 : 1 ≤ (s.takeWhile isDig).length := by
          cases hx : s.takeWhile isDig with
          | nil => rw [hx] at h1; simp at h1
          | cons a t => simp [hx]
        have hw1 : 1 ≤ ((s.dropWhile isDig).takeWhile isWsC).length := by
          cases hx : (s.dropWhile isDig).takeWhile isWsC with
          | nil => rw [hx] at h2; simp at h2
          | cons a t => simp [hx]
        have htl : tabLit.length = 9 := by decide
        omega
      · rw [if_neg h3] at h
        exact absurd h (by simp)

theorem extractAux_walk (l : List Char) (hnl : '\n' ∉ l) (rest : List Char) :
    extractAux (l ++ '\n' :: rest) false 0 = extractAux rest true 0 := by
  induction l with
  | nil => simp [extractAux]
  | cons a l ih =>
    have ha : (a == '\n') = false :=
      beq_eq_false_iff_ne.mpr fun h => hnl (h ▸ List.mem_cons_self a l)
    have hl : '\n' ∉ l := fun h => hnl (List.mem_cons_of_mem a h)
    have step : extractAux (a :: (l ++ '\n' :: rest)) false 0
        = extractAux (l ++ '\n' :: rest) (a == '\n') 0 := by
      simp [extractAux]
    rw [List.cons_append, step, ha]
    exact ih hl

theorem extractAux_walk_end (l : List Char) (hnl : '\n' ∉ l) :
    extractAux l false 0 = [] := by
  induction l with
  | nil => rfl
  | cons a l ih =>
    have ha : (a == '\n') = false :=
      beq_eq_false_iff_ne.mpr fun h => hnl (h ▸ List.mem_cons_self a l)
    have hl : '\n' ∉ l := fun h => hnl (List.mem_cons_of_mem a h)
    have step : extractAux (a :: l) false 0 = extractAux l (a == '\n') 0 := by
      simp [extractAux]
    rw [step, ha]
    exact ih hl

theorem extractAux_skip (m : List Char) (hnl : '\n' ∉ m) :
    ∀ (k : Nat), 1 ≤ k → k ≤ m.length → ∀ (rest' : List Char) (f : Bool),
    extractAux (m ++ rest') f k = extractAux (m.drop k ++ rest') false 0 := by
  induction m with
  | nil =>
    intro k h1 h2 _ _
    exfalso
    simp at h2
    omega
  | cons a m ih =>
    intro k h1 h2 rest' f
    have ha : (a == '\n') = false :=
      beq_eq_false_iff_ne.mpr fun h => hnl (h ▸ List.mem_cons_self a m)
    have hm : '\n' ∉ m := fun h => hnl (List.mem_cons_of_mem a h)
    cases k with
    | zero => exact absurd h1 (by decide)
    | succ j =>
      have step : extractAux (a :: (m ++ rest')) f (j + 1)
          = extractAux (m ++ rest') (a == '\n') j := by
        simp [extractAux]
      rw [List.cons_append, step, ha]
      cases j with
      | zero => rfl
      | succ i =>
        have h2' : i + 1 ≤ m.length := by
          simp at h2
          omega
        rw [ih hm (i + 1) (by omega) h2' rest' false]
        rfl

theorem extractAux_line (l : List Char) (hnl : '\n' ∉ l) (hb : badLine l = false)
    (rest : List Char) :
    extractAux (l ++ '\n' :: rest) true 0 = (lineMatch l).toList ++ extractAux rest true 0 := by
  cases hm : matchAt l with
  | none =>
    have hm2 : matchAt (l ++ '\n' :: rest) = none := by rw [matchAt_line l rest hb, hm]
    have hlm : lineMatch l = none := by simp [lineMatch, hm]
    rw [hlm]
    cases l with
    | nil =>
      simp only [List.nil_append] at hm2 ⊢
      have step : extractAux ('\n' :: rest) true 0 = extractAux rest true 0 := by
        simp [extractAux, hm2]
      simpa using step
    | cons a l' =>
      have ha : (a == '\n') = false :=
        beq_eq_false_iff_ne.mpr fun h => hnl (h ▸ List.mem_cons_self a l')
      have hl' : '\n' ∉ l' := fun h => hnl (List.mem_cons_of_mem a h)
      simp only [List.cons_append] at hm2 ⊢
      have step : extractAux (a :: (l' ++ '\n' :: rest)) true 0
          = extractAux (l' ++ '\n' :: rest) (a == '\n') 0 := by
        simp [extractAux, hm2]
      rw [step, ha]
      simpa using extractAux_walk l' hl' rest
  | some p =>
    obtain ⟨ds, n⟩ := p
    have hm2 : matchAt (l ++ '\n' :: rest) = some (ds, n) := by rw [matchAt_line l rest hb, hm]
    obtain ⟨hn2, hnle⟩ := matchAt_bound l ds n hm
    have hlm : lineMatch l = parseU16 ds := by simp [lineMatch, hm]
    rw [hlm]
    cases l with
    | nil =>
      exfalso
      simp at hnle
      omega
    | cons a l' =>
      have hl' : '\n' ∉ l' := fun h => hnl (List.mem_cons_of_mem a h)
      simp only [List.cons_append] at hm2 ⊢
      have step : extractAux (a :: (l' ++ '\n' :: rest)) true 0
          = (parseU16 ds).toList ++ extractAux (l' ++ '\n' :: rest) false (n - 1) := by
        simp [extractAux, hm2]
      rw [step]
      congr 1
      have hlen : n - 1 ≤ l'.length := by
        simp at hnle
        omega
      rw [extractAux_skip l' hl' (n - 1) (by omega) hlen ('\n' :: rest) false]
      exact extractAux_walk (l'.drop (n - 1)) (fun h => hl' (List.mem_of_mem_drop h)) rest

theorem extractAux_line_end (l : List Char) (hnl : '\n' ∉ l) :
    extractAux l true 0 = (lineMatch l).toList := by
  cases hm : matchAt l with
  | none =>
    have hlm : lineMatch l = none := by simp [lineMatch, hm]
    rw [hlm]
    cases l with
    | nil => rfl
    | cons a l' =>
      have ha : (a == '\n') = false :=
        beq_eq_false_iff_ne.mpr fun h => hnl (h ▸ List.mem_cons_self a l')
      have hl' : '\n' ∉ l' := fun h => hnl (List.mem_cons_of_mem a h)
      have step : extractAux (a :: l') true 0 = extractAux l' (a == '\n') 0 := by
        simp [extractAux, hm]
      rw [step, ha]
      exact extractAux_walk_end l' hl'
  | some p =>
    obtain ⟨ds, n⟩ := p
    obtain ⟨hn2, hnle⟩ := matchAt_bound l ds n hm
    cases l with
    | nil =>
      exfalso
      simp at hnle
      omega
    | cons a l' =>
      have hl' : '\n' ∉ l' := fun h => hnl (List.mem_cons_of_mem a h)
      have step : extractAux (a :: l') true 0
          = (parseU16 ds).toList ++ extractAux l' false (n - 1) := by
        simp [extractAux, hm]
      rw [step]
      have htail : extractAux l' false (n - 1) = [] := by
        have hlen : n - 1 ≤ l'.length := by
          simp at hnle
          omega
        have hs := extractAux_skip l' hl' (n - 1) (by omega) hlen [] false
        rw [List.append_nil, List.append_nil] at hs
        rw [hs]
        exact extractAux_walk_end _ (fun h => hl' (List.mem_of_mem_drop h))
      rw [htail, List.append_nil]
      simp [lineMatch, hm]

theorem extract_joinLines (L : List (List Char)) (hnl : ∀ l ∈ L, '\n' ∉ l)
    (hb : ∀ l ∈ L, badLine l = false) :
    extractStaleC (joinLines L) = L.filterMap lineMatch := by
  induction L with
  | nil => rfl
  | cons l ls ih =>
    cases ls with
    | nil =>
      show extractStaleC (joinLines [l]) = List.filterMap lineMatch [l]
      rw [show joinLines [l] = l from rfl, extractStaleC,
        extractAux_line_end l (hnl l (by simp))]
      cases hx : lineMatch l <;> simp [List.filterMap_cons, hx]
    | cons l2 ls' =>
      have hj : joinLines (l :: l2 :: ls') = l ++ '\n' :: joinLines (l2 :: ls') := rfl
      rw [hj, extractStaleC,
        extractAux_line l (hnl l (by simp)) (hb l (by simp)) (joinLines (l2 :: ls'))]
      have ih2 := ih (fun x hx => hnl x (List.mem_cons_of_mem l hx))
        (fun x hx => hb x (List.mem_cons_of_mem l hx))
      rw [extractStaleC] at ih2
      rw [ih2]
      cases hx : lineMatch l <;> simp [List.filterMap_cons, hx]

theorem containsFreshEntryC_iff (s : List Char) :
    containsFreshEntryC s = true ↔
      ∃ pre d post, s = pre ++ tabLit ++ d :: post ∧ isDig d = true := by
  induction s with
  | nil =>
    constructor
    · intro h
      simp [containsFreshEntryC] at h
    · rintro ⟨pre, d, post, h, _⟩
      exfalso
      have hlen := congrArg List.length h
      simp [tabLit] at hlen
      omega
  | cons c rest ih =>
    rw [show containsFreshEntryC (c :: rest)
      = (freshAt (c :: rest) || containsFreshEntryC rest) from rfl]
    rw [Bool.or_eq_true]
    constructor
    · intro h
      cases h with
      | inl hf =>
        unfold freshAt at hf
        rw [Bool.and_eq_true] at hf
        obtain ⟨hp, hd⟩ := hf
        obtain ⟨t, ht⟩ := List.isPrefixOf_iff_prefix.mp hp
        have hdrop : (c :: rest).drop tabLit.length = t := by
          rw [← ht, List.drop_left]
        rw [hdrop] at hd
        cases t with
        | nil => simp at hd
        | cons d post =>
          exact ⟨[], d, post, by simp [← ht], hd⟩
      | inr hr =>
        obtain ⟨pre, d, post, heq, hd⟩ := ih.mp hr
        exact ⟨c :: pre, d, post, by simp [heq], hd⟩
    · rintro ⟨pre, d, post, heq, hd⟩
      cases pre with
      | nil =>
        left
        simp only [List.nil_append] at heq
        unfold freshAt
        rw [Bool.and_eq_true]
        refine ⟨List.isPrefixOf_iff_prefix.mpr ⟨d :: post, heq.symm⟩, ?hdig⟩
        rw [heq, List.drop_left]
        exact hd
      | cons e pre' =>
        right
        apply ih.mpr
        have h2 : c :: rest = e :: (pre' ++ tabLit ++ d :: post) := by
          simpa using heq
        injection h2 with _ h3
        exact ⟨pre', d, post, h3, hd⟩

theorem verifyFrom_attempts_le (listings : Nat → String) :
    ∀ (r a : Nat), (verifyFrom listings a r).attempts ≤ r := by
  intro r
  induction r with
  | zero =>
    intro a
    simp [verifyFrom]
  | succ n ih =>
    intro a
    by_cases h : containsFreshEntry (listings a) = true
    · simp [verifyFrom, h]
    · have h' : containsFreshEntry (listings a) = false := by simpa using h
      simp only [verifyFrom, h', Bool.false_eq_true, if_false]
      have := ih (a + 1)
      omega

theorem watchFrom1_completed (fs : Nat → FsObs) (last : Nat) :
    ∀ (fuel t u : Nat), watchFrom1 fs last t fuel = WatchResult.completed u →
      t ≤ u ∧ ∃ ts, fs u = FsObs.found ts ∧ ts ≠ last := by
  intro fuel
  induction fuel with
  | zero =>
    intro t u h
    exact absurd h (by simp [watchFrom1])
  | succ n ih =>
    intro t u h
    simp only [watchFrom1] at h
    cases hobs : fs t with
    | found ts =>
      simp only [hobs] at h
      by_cases hts : ts ≠ last
      · rw [if_pos hts] at h
        injection h with h1
        subst h1
        exact ⟨le_refl t, ts, hobs, hts⟩
      · rw [if_neg hts] at h
        obtain ⟨h1, h2⟩ := ih (t + 1) u h
        exact ⟨by omega, h2⟩
    | absent =>
      simp only [hobs] at h
      exact absurd h (by simp)
    | err e =>
      simp only [hobs] at h
      exact absurd h (by simp)

theorem watchFrom1_reaches (fs : Nat → FsObs) (last : Nat) :
    ∀ (fuel t u ts : Nat), t ≤ u → u - t < fuel → fs u = FsObs.found ts → ts ≠ last →
      (∀ v, v < u → t ≤ v → fs v = FsObs.found last) →
      watchFrom1 fs last t fuel = WatchResult.completed u := by
  intro fuel
  induction fuel with
  | zero =>
    intro t u ts h1 h2 _ _ _
    omega
  | succ n ih =>
    intro t u ts h1 h2 hu hts hmid
    simp only [watchFrom1]
    by_cases heq : t = u
    · subst heq
      simp [hu, hts]
    · have ht : fs t = FsObs.found last := hmid t (by omega) (le_refl t)
      simp only [ht]
      rw [if_neg (by simp)]
      exact ih (t + 1) u ts (by omega) (by omega) hu hts
        (fun v hv1 hv2 => hmid v hv1 (by omega))

theorem watchFrom1_error (fs : Nat → FsObs) (last : Nat) :
    ∀ (fuel t u e : Nat), t ≤ u → u - t < fuel → fs u = FsObs.err e →
      (∀ v, v < u → t ≤ v → fs v = FsObs.found last) →
      watchFrom1 fs last t fuel = WatchResult.failed (FsErr.other e) u := by
  intro fuel
  induction fuel with
  | zero =>
    intro t u e h1 h2 _ _
    omega
  | succ n ih =>
    intro t u e h1 h2 hu hmid
    simp only [watchFrom1]
    by_cases heq : t = u
    · subst heq
      simp [hu]
    · have ht : fs t = FsObs.found last := hmid t (by omega) (le_refl t)
      simp only [ht]
      rw [if_neg (by simp)]
      exact ih (t + 1) u e (by omega) (by omega) hu
        (fun v hv1 hv2 => hmid v hv1 (by omega))

theorem watchFrom2_completed (fs : Nat → FsObs) :
    ∀ (fuel t u : Nat), watchFrom2 fs t fuel = WatchResult.completed u →
      t ≤ u ∧ existsB (fs u) = true ∧ ∀ v, v < u → t ≤ v → existsB (fs v) = false := by
  intro fuel
  induction fuel with
  | zero =>
    intro t u h
    exact absurd h (by simp [watchFrom2])
  | succ n ih =>
    intro t u h
    simp only [watchFrom2] at h
    by_cases hex : existsB (fs t) = true
    · rw [if_pos hex] at h
      injection h with h1
      subst h1
      exact ⟨le_refl t, hex, fun v hv1 hv2 => by omega⟩
    · rw [if_neg hex] at h
      obtain ⟨h1, h2, h3⟩ := ih (t + 1) u h
      refine ⟨by omega, h2, fun v hv1 hv2 => ?hv⟩
      by_cases hvt : v = t
      · subst hvt
        simpa using hex
      · exact h3 v hv1 (by omega)

theorem watchFrom2_reaches (fs : Nat → FsObs) :
    ∀ (fuel t u : Nat), t ≤ u → u - t < fuel → existsB (fs u) = true →
      (∀ v, v < u → t ≤ v → existsB (fs v) = false) →
      watchFrom2 fs t fuel = WatchResult.completed u := by
  intro fuel
  induction fuel with
  | zero =>
    intro t u h1 h2 _ _
    omega
  | succ n ih =>
    intro t u h1 h2 hu hmid
    simp only [watchFrom2]
    by_cases heq : t = u
    · subst heq
      rw [if_pos hu]
    · have ht : existsB (fs t) = false := hmid t (by omega) (le_refl t)
      rw [if_neg (by simp [ht])]
      exact ih (t + 1) u (by omega) (by omega) hu
        (fun v hv1 hv2 => hmid v hv1 (by omega))

theorem watchFrom2_never_fails (fs : Nat → FsObs) :
    ∀ (fuel t : Nat) (e : FsErr) (u : Nat), watchFrom2 fs t fuel ≠ WatchResult.failed e u := by
  intro fuel
  induction fuel with
  | zero =>
    intro t e u h
    simp [watchFrom2] at h
  | succ n ih =>
    intro t e u h
    simp only [watchFrom2] at h
    by_cases hex : existsB (fs t) = true
    · rw [if_pos hex] at h
      exact absurd h (by simp)
    · rw [if_neg hex] at h
      exact ih (t + 1) e u h

theorem takeWhile_all {p : Char → Bool} (l : List Char) (h : ∀ c ∈ l, p c = true) :
    l.takeWhile p = l := by
  induction l with
  | nil => rfl
  | cons a l ih =>
    have ha := h a (List.mem_cons_self a l)
    simp [List.takeWhile_cons, ha, ih (fun c hc => h c (List.mem_cons_of_mem a hc))]

theorem dropWhile_all {p : Char → Bool} (l : List Char) (h : ∀ c ∈ l, p c = true) :
    l.dropWhile p = [] := by
  induction l with
  | nil => rfl
  | cons a l ih =>
    have ha := h a (List.mem_cons_self a l)
    simp [List.dropWhile_cons, ha, ih (fun c hc => h c (List.mem_cons_of_mem a hc))]

theorem split_path (x : List Char) : upToLastSlash x ++ afterLastSlash x = x := by
  unfold upToLastSlash afterLastSlash
  rw [← List.reverse_append, List.takeWhile_append_dropWhile, List.reverse_reverse]

theorem afterLastSlash_no_slash (x : List Char) :
    ∀ c ∈ afterLastSlash x, notSlashC c = true := by
  intro c hc
  unfold afterLastSlash at hc
  exact List.mem_takeWhile_imp (List.mem_reverse.mp hc)

theorem dropWhile_head_false {p : Char → Bool} :
    ∀ (l : List Char) (b : Char) (t : List Char), l.dropWhile p = b :: t → p b = false := by
  intro l
  induction l with
  | nil => intro b t h; simp at h
  | cons a l ih =>
    intro b t h
    by_cases hpa : p a = true
    · rw [List.dropWhile_cons_of_pos hpa] at h
      exact ih b t h
    · rw [List.dropWhile_cons_of_neg hpa] at h
      injection h with h1 _
      rw [← h1]
      simpa using hpa

theorem upToLastSlash_shape (x : List Char) :
    upToLastSlash x = [] ∨ ∃ d, upToLastSlash x = d ++ ['/'] := by
  cases hdw : x.reverse.dropWhile notSlashC with
  | nil =>
    left
    rw [upToLastSlash, hdw]
    rfl
  | cons b t =>
    right
    have hb : notSlashC b = false := dropWhile_head_false _ _ _ hdw
    have hb2 : b = '/' := by
      unfold notSlashC at hb
      simpa using hb
    refine ⟨t.reverse, ?hshape⟩
    rw [upToLastSlash, hdw, hb2]
    simp

theorem afterLastSlash_append (d n : List Char)
    (hd : d = [] ∨ ∃ d', d = d' ++ ['/']) (hn : ∀ c ∈ n, notSlashC c = true) :
    afterLastSlash (d ++ n) = n := by
  cases hd with
  | inl h =>
    subst h
    rw [List.nil_append, afterLastSlash,
      takeWhile_all _ (fun c hc => hn c (List.mem_reverse.mp hc)), List.reverse_reverse]
  | inr h =>
    obtain ⟨d', rfl⟩ := h
    rw [afterLastSlash]
    have h1 : ((d' ++ ['/']) ++ n).reverse = n.reverse ++ '/' :: d'.reverse := by simp
    rw [h1, tw_break _ '/' _ (by decide),
      takeWhile_all _ (fun c hc => hn c (List.mem_reverse.mp hc)), List.reverse_reverse]

theorem mem_afterLastSlash (x : List Char) (c : Char) (hc : c ∈ afterLastSlash x) : c ∈ x := by
  unfold afterLastSlash at hc
  exact List.mem_reverse.mp ((List.takeWhile_sublist _).subset (List.mem_reverse.mp hc))

theorem mem_upToLastSlash (x : List Char) (c : Char) (hc : c ∈ upToLastSlash x) : c ∈ x := by
  unfold upToLastSlash at hc
  exact List.mem_reverse.mp ((List.dropWhile_sublist _).subset (List.mem_reverse.mp hc))

theorem mem_fileStemOf (f : List Char) (c : Char) (hc : c ∈ fileStemOf f) : c ∈ f := by
  unfold fileStemOf at hc
  by_cases hA : (f.reverse.takeWhile notDotC).length = f.length
  · rw [if_pos hA] at hc
    exact hc
  · rw [if_neg hA] at hc
    by_cases hB : (f.reverse.dropWhile notDotC).tail.isEmpty = true
    · rw [if_pos hB] at hc
      exact hc
    · rw [if_neg hB] at hc
      have hc1 := List.mem_reverse.mp hc
      have hc2 : c ∈ f.reverse.dropWhile notDotC := (List.tail_sublist _).subset hc1
      exact List.mem_reverse.mp ((List.dropWhile_sublist _).subset hc2)

theorem normalize_noop (x : List Char) (h : ∀ c ∈ x, (c == '\\') = false) :
    normalizeC x = x := by
  induction x with
  | nil => rfl
  | cons a x ih =>
    have ha := h a (List.mem_cons_self a x)
    rw [show normalizeC (a :: x) = (if a == '\\' then '/' else a) :: normalizeC x from rfl]
    rw [if_neg (by simp [ha]), ih (fun c hc => h c (List.mem_cons_of_mem a hc))]

theorem normalize_no_bs (y : List Char) : ∀ c ∈ normalizeC y, (c == '\\') = false := by
  intro c hc
  unfold normalizeC at hc
  obtain ⟨b, hb, rfl⟩ := List.mem_map.mp hc
  by_cases hb2 : (b == '\\') = true
  · rw [if_pos hb2]
    decide
  · rw [if_neg hb2]
    simpa using hb2

theorem fileStemOf_no_dot (f : List Char) (h : ('.') ∉ f) : fileStemOf f = f := by
  have hall : ∀ c ∈ f.reverse, notDotC c = true := by
    intro c hc
    have hcf : c ∈ f := List.mem_reverse.mp hc
    have hcd : c ≠ '.' := fun he => h (he ▸ hcf)
    simp [notDotC, hcd]
  unfold fileStemOf
  rw [takeWhile_all _ hall]
  rw [if_pos (by simp)]

theorem deriveOutput_eq_spec (p : List Char)
    (hbs : ∀ c ∈ p, (c == '\\') = false)
    (h1 : fileStemOf (afterLastSlash p) ≠ [])
    (h2 : fileStemOf (afterLastSlash p) ≠ ['.'])
    (h3 : fileStemOf (afterLastSlash p) ≠ ['.', '.']) :
    deriveOutput? p = some (specOutputPath p) := by
  have hst_noslash : ∀ c ∈ fileStemOf (afterLastSlash p), notSlashC c = true :=
    fun c hc => afterLastSlash_no_slash p c (mem_fileStemOf _ c hc)
  have hafter : afterLastSlash (upToLastSlash p ++ fileStemOf (afterLastSlash p))
      = fileStemOf (afterLastSlash p) :=
    afterLastSlash_append _ _ (upToLastSlash_shape p) hst_noslash
  have hfn : fileName? (withExtensionEmpty p) = some (fileStemOf (afterLastSlash p)) := by
    unfold fileName? withExtensionEmpty
    rw [hafter, if_neg (by simp [h1, h2, h3])]
  unfold deriveOutput?
  simp only [hfn]
  unfold withFileName specOutputPath
  have hmem : ∀ c ∈ upToLastSlash p ++ (fileStemOf (afterLastSlash p) ++ layeredSuffix),
      (c == '\\') = false := by
    intro c hc
    rcases List.mem_append.mp hc with h | h
    · exact hbs c (mem_upToLastSlash p c h)
    · rcases List.mem_append.mp h with h' | h'
      · exact hbs c (mem_afterLastSlash p c (mem_fileStemOf _ c h'))
      · have hlay : ∀ x ∈ layeredSuffix, (x == '\\') = false := by decide
        exact hlay c h'
  rw [normalize_noop _ hmem, List.append_assoc]

theorem ws_not_dig (c : Char) (h : isWsC c = true) : isDig c = false := by
  unfold isWsC at h
  simp only [Bool.or_eq_true, beq_iff_eq] at h
  rcases h with ((((h | h) | h) | h) | h) | h <;> subst h <;> decide

theorem closeIdx_map_close (xs : List Nat) :
    List.filterMap closeIdx (xs.map Event.close) = xs := by
  induction xs with
  | nil => rfl
  | cons a xs ih => simp [List.filterMap_cons, closeIdx, ih]

theorem closeIdx_comp_close (xs : List Nat) :
    List.filterMap (closeIdx ∘ Event.close) xs = xs := by
  induction xs with
  | nil => rfl
  | cons a xs ih => simp [List.filterMap_cons, closeIdx, ih]

theorem closesOf_runEvents (p l0 : String) (ls : Nat → String) :
    closesOf (runEvents p l0 ls).1 = (extractStaleIndices l0).reverse := by
  unfold runEvents
  cases hv : (verify ls).found with
  | none =>
    simp [closesOf, List.filterMap_append, closeIdx_map_close, closeIdx_comp_close, List.filterMap_cons, closeIdx]
  | some a =>
    cases hd : derivedOutput p with
    | none =>
      simp [closesOf, List.filterMap_append, closeIdx_map_close, closeIdx_comp_close, List.filterMap_cons, closeIdx]
    | some out =>
      simp [closesOf, List.filterMap_append, closeIdx_map_close, closeIdx_comp_close, List.filterMap_cons, closeIdx]

theorem runEvents_timeout (p l0 : String) (ls : Nat → String)
    (h : (verify ls).found = none) :
    runEvents p l0 ls
      = ((extractStaleIndices l0).reverse.map Event.close ++ [Event.openTab],
         RunOutcome.verifyTimeout) := by
  unfold runEvents
  rw [h]

theorem verify_all_fail (ls : Nat → String) (h1 : containsFreshEntry (ls 1) = false)
    (h2 : containsFreshEntry (ls 2) = false) (h3 : containsFreshEntry (ls 3) = false) :
    verify ls = ⟨none, 3, 3⟩ := by
  have s1 : verify ls = if containsFreshEntry (ls 1) = true then (⟨some 1, 1, 0⟩ : VerifyOut)
      else ⟨(verifyFrom ls 2 2).found, (verifyFrom ls 2 2).attempts + 1,
            (verifyFrom ls 2 2).delays + 1⟩ := rfl
  have s2 : verifyFrom ls 2 2 = if containsFreshEntry (ls 2) = true then (⟨some 2, 1, 0⟩ : VerifyOut)
      else ⟨(verifyFrom ls 3 1).found, (verifyFrom ls 3 1).attempts + 1,
            (verifyFrom ls 3 1).delays + 1⟩ := rfl
  have s3 : verifyFrom ls 3 1 = if containsFreshEntry (ls 3) = true then (⟨some 3, 1, 0⟩ : VerifyOut)
      else ⟨(verifyFrom ls 4 0).found, (verifyFrom ls 4 0).attempts + 1,
            (verifyFrom ls 4 0).delays + 1⟩ := rfl
  rw [s1, if_neg (by simp [h1]), s2, if_neg (by simp [h2]), s3, if_neg (by simp [h3])]
  rfl

theorem goodPath_stem (s : String) (h : goodPath s = true) :
    fileStemOf (afterLastSlash (normalizeC s.data)) ≠ [] ∧
    fileStemOf (afterLastSlash (normalizeC s.data)) ≠ ['.'] ∧
    fileStemOf (afterLastSlash (normalizeC s.data)) ≠ ['.', '.'] := by
  unfold goodPath at h
  simp only [Bool.and_eq_true] at h
  obtain ⟨⟨⟨⟨⟨⟨_, _⟩, _⟩, _⟩, he⟩, hf⟩, hg⟩ := h
  refine ⟨?ha, ?hb, ?hc⟩
  · intro he2
    rw [he2] at he
    simp at he
  · intro he2
    rw [he2] at hf
    simp at hf
  · intro he2
    rw [he2] at hg
    simp at hg

/-- C1 counterexample: on the listing whose two lines are the digit line
and the literal line, no single line matches the
digits-whitespace-prefix pattern, yet the extraction returns the index 5
of the digit line, because the `\s+` of the anchored regex runs across
the line break. -/
theorem C1_counterexample :
    joinLines [(lineFive).data, (lineBDoc).data] = (crossListing).data ∧
    List.filterMap lineMatch [(lineFive).data, (lineBDoc).data] = [] ∧
    extractStaleIndices crossListing = [5] :=
  ⟨by decide, by decide, by decide⟩

/-- C1 (amended): for every listing in which no line consists of digits
followed only by whitespace (the case where a match spans the line
break), the stale-index extraction returns exactly the indices of the
lines matching digits, whitespace, then the reserved prefix, in
top-to-bottom order; lines with non-matching heads or with digit runs
that do not fit the index type contribute nothing without aborting the
scan. -/
theorem C1_extract_per_line (L : List (List Char)) (hnl : ∀ l ∈ L, '\n' ∉ l)
    (hb : ∀ l ∈ L, badLine l = false) :
    extractStaleC (joinLines L) = L.filterMap lineMatch :=
  extract_joinLines L hnl hb

/-- Witness for C1: the amended theorem evaluated on a concrete two-line
listing holding one stale entry at index 7. -/
theorem C1_extract_per_line_witness :
    extractStaleC (joinLines [(lineSeven).data, (junkLine).data])
      = List.filterMap lineMatch [(lineSeven).data, (junkLine).data] ∧
    List.filterMap lineMatch [(lineSeven).data, (junkLine).data] = [7] :=
  ⟨C1_extract_per_line [(lineSeven).data, (junkLine).data] (by decide) (by decide), by decide⟩

/-- C2 counterexample: with the same stale entries 2 and 5 listed in
descending order, the driver closes index 2 before index 5 — ascending,
not descending — so the close order is not descending regardless of the
order in the listing. -/
theorem C2_counterexample :
    closesOf (runEvents docPath descListing listsAlways).1 = [2, 5] ∧ (2 : Nat) < 5 :=
  ⟨by decide, by decide⟩

/-- C2 (amended): the close commands issued before the open command are
the extracted stale indices in reverse listing order; when the listing
lists them in ascending order this is strictly descending; an ascending
listing with entries at indices 2 then 5 yields close 5, close 2, then
open; and a listing with no stale entries yields no close at all. -/
theorem C2_close_order (p l0 : String) (ls : Nat → String) :
    closesOf (runEvents p l0 ls).1 = (extractStaleIndices l0).reverse ∧
    (List.Sorted (· < ·) (extractStaleIndices l0) →
      List.Sorted (· > ·) (closesOf (runEvents p l0 ls).1)) ∧
    (extractStaleIndices l0 = [] → ∀ i, Event.close i ∉ (runEvents p l0 ls).1) ∧
    (runEvents docPath ascListing listsAlways).1
      = [Event.close 5, Event.close 2, Event.openTab, Event.addDocs docPath,
         Event.docStart, Event.watch docOutPath] ∧
    (runEvents docPath emptyListing listsAlways).1
      = [Event.openTab, Event.addDocs docPath, Event.docStart, Event.watch docOutPath] := by
  refine ⟨closesOf_runEvents p l0 ls, ?hsort, ?hnone, by decide, by decide⟩
  · intro hs
    rw [closesOf_runEvents p l0 ls]
    exact List.pairwise_reverse.mpr hs
  · intro h0 i hmem
    unfold runEvents at hmem
    cases hv : (verify ls).found with
    | none =>
      simp only [hv, h0] at hmem
      simp at hmem
    | some a =>
      cases hd : derivedOutput p with
      | none =>
        simp only [hv, hd, h0] at hmem
        simp at hmem
      | some out =>
        simp only [hv, hd, h0] at hmem
        simp at hmem

/-- Witness for C2: on concrete listings, an ascending extraction yields
a strictly descending close order, and an entry-free listing yields no
close command. -/
theorem C2_close_order_witness :
    List.Sorted (· > ·) (closesOf (runEvents docPath ascListing listsAlways).1) ∧
    (∀ i, Event.close i ∉ (runEvents docPath emptyListing listsAlways).1) :=
  ⟨(C2_close_order docPath ascListing listsAlways).2.1 (by decide),
   (C2_close_order docPath emptyListing listsAlways).2.2.1 (by decide)⟩

/-- C3 counterexample: for the input path consisting of the bare
separator there is no file name, the source's `unwrap` panics, and no
output path is derived, so the derivation is not total over every input
path. -/
theorem C3_counterexample : derivedOutput rootPath = none := by decide

/-- C3 (amended): for every input path whose normalized form ends in a
plain file-name component with a plain stem, the derived output path
strips the single final extension of the file name and appends the
fixed `.layered.pdf`, separators normalized — in particular the two
spec examples hold; on paths without such a file name the derivation
fails instead of producing an output path. -/
theorem C3_output_derivation :
    derivedOutput winPath = some winOutPath ∧
    derivedOutput tarPath = some tarOutPath ∧
    ∀ s : String, goodPath s = true →
      derivedOutput s = some (String.mk (specOutputPath (normalizeC s.data))) := by
  refine ⟨by decide, by decide, ?hgen⟩
  intro s h
  obtain ⟨h1, h2, h3⟩ := goodPath_stem s h
  unfold derivedOutput
  rw [deriveOutput_eq_spec (normalizeC s.data) (normalize_no_bs s.data) h1 h2 h3]

/-- Witness for C3: the amended theorem evaluated on the
double-extension example path. -/
theorem C3_output_derivation_witness :
    goodPath tarPath = true ∧
    derivedOutput tarPath = some (String.mk (specOutputPath (normalizeC (tarPath).data))) :=
  ⟨by decide, C3_output_derivation.2.2 tarPath (by decide)⟩

/-- C4: the verification loop makes at most 3 attempts; failing on
attempt 1 and succeeding on attempt 2 returns success after exactly 2
attempts with exactly 1 inter-attempt delay; when no attempt succeeds it
times out after exactly 3 attempts, and the driver then aborts with the
verification timeout, issuing no submission command at all. -/
theorem C4_verify_loop (ls : Nat → String) :
    (verify ls).attempts ≤ MAX_ATTEMPTS ∧
    (containsFreshEntry (ls 1) = false → containsFreshEntry (ls 2) = true →
      verify ls = ⟨some 2, 2, 1⟩) ∧
    ((∀ i, 1 ≤ i → i ≤ 3 → containsFreshEntry (ls i) = false) →
      verify ls = ⟨none, 3, 3⟩ ∧
      ∀ p l0 : String,
        (runEvents p l0 ls).2 = RunOutcome.verifyTimeout ∧
        Event.docStart ∉ (runEvents p l0 ls).1 ∧
        ∀ q, Event.addDocs q ∉ (runEvents p l0 ls).1) := by
  refine ⟨verifyFrom_attempts_le ls MAX_ATTEMPTS 1, ?hsucc, ?hfail⟩
  · intro hf1 ht2
    have s1 : verify ls = if containsFreshEntry (ls 1) = true then (⟨some 1, 1, 0⟩ : VerifyOut)
        else ⟨(verifyFrom ls 2 2).found, (verifyFrom ls 2 2).attempts + 1,
              (verifyFrom ls 2 2).delays + 1⟩ := rfl
    have s2 : verifyFrom ls 2 2
        = if containsFreshEntry (ls 2) = true then (⟨some 2, 1, 0⟩ : VerifyOut)
        else ⟨(verifyFrom ls 3 1).found, (verifyFrom ls 3 1).attempts + 1,
              (verifyFrom ls 3 1).delays + 1⟩ := rfl
    rw [s1, if_neg (by simp [hf1]), s2, if_pos ht2]
  · intro hall
    have hv := verify_all_fail ls (hall 1 (by omega) (by omega)) (hall 2 (by omega) (by omega))
      (hall 3 (by omega) (by omega))
    refine ⟨hv, fun p l0 => ?hrun⟩
    have hnone : (verify ls).found = none := by rw [hv]
    rw [runEvents_timeout p l0 ls hnone]
    refine ⟨rfl, ?hds, ?had⟩
    · intro hmem
      simp at hmem
    · intro q hmem
      simp at hmem

/-- Witness for C4: the two scenarios evaluated on concrete listing
families, one succeeding on attempt 2 and one never succeeding. -/
theorem C4_verify_loop_witness :
    verify listsSecond = ⟨some 2, 2, 1⟩ ∧ verify listsNone = ⟨none, 3, 3⟩ :=
  ⟨(C4_verify_loop listsSecond).2.1 (by decide) (by decide),
   ((C4_verify_loop listsNone).2.2 (fun i _ _ => (by decide : containsFreshEntry missListing = false))).1⟩

/-- C5: the watcher fixes its branch at watch start: when the output
exists with timestamp T, completion happens only at a poll from time 1
on observing a timestamp different from T — never one equal to T — and
the first such poll completes; when the output does not exist at watch
start, exactly the first poll observing existence completes. -/
theorem C5_watch_branches (fs : Nat → FsObs) (fuel : Nat) :
    (∀ T t, fs 0 = FsObs.found T → watchOutput fs fuel = WatchResult.completed t →
      1 ≤ t ∧ ∃ ts, fs t = FsObs.found ts ∧ ts ≠ T) ∧
    (∀ T u ts, fs 0 = FsObs.found T → fs u = FsObs.found ts → ts ≠ T → 1 ≤ u →
      (∀ v, v < u → 1 ≤ v → fs v = FsObs.found T) → u ≤ fuel →
      watchOutput fs fuel = WatchResult.completed u) ∧
    (∀ t, existsB (fs 0) = false → watchOutput fs fuel = WatchResult.completed t →
      existsB (fs t) = true ∧ ∀ v, v < t → existsB (fs v) = false) ∧
    (∀ u, existsB (fs 0) = false → existsB (fs u) = true →
      (∀ v, v < u → existsB (fs v) = false) → u < fuel →
      watchOutput fs fuel = WatchResult.completed u) := by
  refine ⟨?h1, ?h2, ?h3, ?h4⟩
  · intro T t h0 hw
    unfold watchOutput at hw
    simp only [h0] at hw
    obtain ⟨ht, hex⟩ := watchFrom1_completed fs T fuel 1 t hw
    exact ⟨ht, hex⟩
  · intro T u ts h0 hu hts h1 hmid hfuel
    unfold watchOutput
    simp only [h0]
    exact watchFrom1_reaches fs T fuel 1 u ts h1 (by omega) hu hts hmid
  · intro t h0 hw
    unfold watchOutput at hw
    cases h00 : fs 0 with
    | found ts =>
      rw [h00] at h0
      simp [existsB] at h0
    | absent =>
      simp only [h00] at hw
      obtain ⟨_, hex, hmid⟩ := watchFrom2_completed fs fuel 0 t hw
      exact ⟨hex, fun v hv => hmid v hv (by omega)⟩
    | err e =>
      simp only [h00] at hw
      obtain ⟨_, hex, hmid⟩ := watchFrom2_completed fs fuel 0 t hw
      exact ⟨hex, fun v hv => hmid v hv (by omega)⟩
  · intro u h0 hu hmid hfuel
    unfold watchOutput
    cases h00 : fs 0 with
    | found ts =>
      rw [h00] at h0
      simp [existsB] at h0
    | absent =>
      simp only [h00]
      exact watchFrom2_reaches fs fuel 0 u (by omega) (by omega) hu (fun v hv1 _ => hmid v hv1)
    | err e =>
      simp only [h00]
      exact watchFrom2_reaches fs fuel 0 u (by omega) (by omega) hu (fun v hv1 _ => hmid v hv1)

/-- Witness for C5: both branches evaluated on concrete filesystem
trajectories — overwrite observed at time 3, appearance observed at
time 2. -/
theorem C5_watch_branches_witness :
    watchOutput fsSame 10 = WatchResult.completed 3 ∧
    watchOutput fsAppear 10 = WatchResult.completed 2 :=
  ⟨(C5_watch_branches fsSame 10).2.1 10 3 11 (by decide) (by decide) (by decide) (by decide)
      (by decide) (by decide),
   (C5_watch_branches fsAppear 10).2.2.2 2 (by decide) (by decide) (by decide) (by decide)⟩

/-- C6: the fresh-entry check is true exactly when the reserved prefix
followed by an underscore and at least one digit occurs anywhere in the
listing text. -/
theorem C6_fresh_entry (s : String) :
    containsFreshEntry s = true ↔
      ∃ pre d post, s.data = pre ++ tabLit ++ d :: post ∧ isDig d = true :=
  containsFreshEntryC_iff s.data

/-- C7 counterexample: the listing line carrying leading whitespace
before its numeric index yields nothing: the anchored `^(\d+)` of the
scan admits no leading whitespace, so index 5 is not extracted. -/
theorem C7_counterexample :
    extractStaleIndices wsListing = [] ∧ (5 : Nat) ∉ extractStaleIndices wsListing :=
  ⟨by decide, by decide⟩

/-- C7 (amended): a listing line beginning with a whitespace character
never matches — the whole line is skipped and contributes no index,
because the scan requires the digits at the very start of the line. -/
theorem C7_leading_ws_skipped (c : Char) (l rest : List Char)
    (hws : isWsC c = true) (hc : c ≠ '\n') (hnl : '\n' ∉ l) :
    extractStaleC ((c :: l) ++ '\n' :: rest) = extractStaleC rest := by
  have hdig : isDig c = false := ws_not_dig c hws
  have hm : matchAt (c :: (l ++ '\n' :: rest)) = none := by
    unfold matchAt
    rw [if_pos]
    rw [List.takeWhile_cons_of_neg (by simp [hdig])]
    rfl
  show extractAux ((c :: l) ++ '\n' :: rest) true 0 = extractAux rest true 0
  rw [List.cons_append]
  have step : extractAux (c :: (l ++ '\n' :: rest)) true 0
      = extractAux (l ++ '\n' :: rest) (c == '\n') 0 := by
    simp [extractAux, hm]
  rw [step, show (c == '\n') = false from beq_eq_false_iff_ne.mpr hc]
  exact extractAux_walk l hnl rest

/-- Witness for C7: a concrete line with a leading space and a valid
stale entry after it contributes nothing, while the following line's
index 7 is still extracted. -/
theorem C7_leading_ws_skipped_witness :
    extractStaleC ((' ' :: (wsTail).data) ++ '\n' :: (lineSeven).data)
      = extractStaleC (lineSeven).data ∧
    extractStaleC (lineSeven).data = [7] :=
  ⟨C7_leading_ws_skipped ' ' (wsTail).data (lineSeven).data (by decide) (by decide) (by decide),
   by decide⟩

/-- C8 counterexample: the output is initially absent, the metadata
query at poll time 1 fails with a non-not-found error, and the watcher
does not abort: it keeps polling and completes when the file appears at
time 2, because `Path::exists` swallows every error. -/
theorem C8_counterexample :
    fsErrSkip 1 = FsObs.err 13 ∧
    watchOutput fsErrSkip 10 = WatchResult.completed 2 ∧
    watchOutput fsErrSkip 10 ≠ WatchResult.failed (FsErr.other 13) 1 :=
  ⟨by decide, by decide, by decide⟩

/-- C8 (amended): a metadata failure aborts the watch only in the
branch where the output existed at watch start; in the initially-absent
branch the watcher never aborts — an error there is indistinguishable
from non-existence and polling continues. -/
theorem C8_error_propagation (fs : Nat → FsObs) (fuel : Nat) :
    (∀ T e u, fs 0 = FsObs.found T → fs u = FsObs.err e → 1 ≤ u →
      (∀ v, v < u → 1 ≤ v → fs v = FsObs.found T) → u ≤ fuel →
      watchOutput fs fuel = WatchResult.failed (FsErr.other e) u) ∧
    (existsB (fs 0) = false → ∀ e u, watchOutput fs fuel ≠ WatchResult.failed e u) := by
  constructor
  · intro T e u h0 hu h1 hmid hfuel
    unfold watchOutput
    simp only [h0]
    exact watchFrom1_error fs T fuel 1 u e h1 (by omega) hu hmid
  · intro h0 e u
    unfold watchOutput
    cases h00 : fs 0 with
    | found ts =>
      rw [h00] at h0
      simp [existsB] at h0
    | absent =>
      simp only [h00]
      exact watchFrom2_never_fails fs fuel 0 e u
    | err e2 =>
      simp only [h00]
      exact watchFrom2_never_fails fs fuel 0 e u

/-- Witness for C8: on concrete trajectories, the initially-present
branch aborts at the first erroring poll, and the initially-absent
branch never returns a failure. -/
theorem C8_error_propagation_witness :
    watchOutput fsErrPresent 10 = WatchResult.failed (FsErr.other 13) 1 ∧
    (∀ e u, watchOutput fsErrSkip 10 ≠ WatchResult.failed e u) :=
  ⟨(C8_error_propagation fsErrPresent 10).1 10 13 1 (by decide) (by decide) (by decide)
      (fun v hv1 hv2 => absurd hv1 (by omega)) (by decide),
   (C8_error_propagation fsErrSkip 10).2 (by decide)⟩

/-- C9: an input path whose file name has no extension derives its
output by appending `.layered.pdf` to the whole normalized path:
nothing is stripped, and the derivation does not fail. -/
theorem C9_no_extension (s : String) (hg : goodPath s = true)
    (hd : ('.') ∉ afterLastSlash (normalizeC s.data)) :
    derivedOutput s = some (String.mk (normalizeC s.data ++ layeredSuffix)) := by
  obtain ⟨h1, h2, h3⟩ := goodPath_stem s hg
  unfold derivedOutput
  rw [deriveOutput_eq_spec (normalizeC s.data) (normalize_no_bs s.data) h1 h2 h3]
  have hs : specOutputPath (normalizeC s.data) = normalizeC s.data ++ layeredSuffix := by
    unfold specOutputPath
    rw [fileStemOf_no_dot _ hd, split_path]
  rw [hs]

/-- Witness for C9: the extensionless example path derives its output by
plain suffix append, matching the expected literal. -/
theorem C9_no_extension_witness :
    goodPath plainPath = true ∧
    derivedOutput plainPath = some (String.mk (normalizeC (plainPath).data ++ layeredSuffix)) ∧
    String.mk (normalizeC (plainPath).data ++ layeredSuffix) = plainOutPath :=
  ⟨by decide, C9_no_extension plainPath (by decide) (by decide), by decide⟩

/-- C10: the loop sleeps after every failed attempt including the final
one: when all 3 attempts fail, exactly 3 delays elapse before the
timeout error is returned, not 2. -/
theorem C10_delay_after_last (ls : Nat → String)
    (h : ∀ i, 1 ≤ i → i ≤ 3 → containsFreshEntry (ls i) = false) :
    (verify ls).delays = 3 ∧ (verify ls).found = none := by
  rw [verify_all_fail ls (h 1 (by omega) (by omega)) (h 2 (by omega) (by omega))
    (h 3 (by omega) (by omega))]
  exact ⟨rfl, rfl⟩

/-- Witness for C10: three delays on the concrete never-succeeding
listing family. -/
theorem C10_delay_after_last_witness : (verify listsNone).delays = 3 :=
  (C10_delay_after_last listsNone (fun i _ _ => (by decide : containsFreshEntry missListing = false))).1
